import Mathlib

/-!
Verification of the minimal PNG decoder `load_png` in
`scripts/inspect-tiles.py` (the kobold repository).

The embedding models Python byte strings as `List Nat` (each entry a byte
value), Python slices `b[i:j]` as clamping take/drop, and the Python
exceptions that the script can actually raise as the `PyErr` type.
The external `zlib.decompress` collaborator is a function parameter.
-/

namespace InspectTiles

/-- Python exception kinds reachable in `load_png`.  Note the script defines
no part of the error taxonomy of the spec (`FormatError`, `TruncatedInputError`,
`UnsupportedFeatureError`, ...); the only failures are built-in Python
exceptions. -/
inductive PyErr where
  | structError          -- struct.unpack on a buffer of the wrong size
  | unicodeDecodeError   -- bytes.decode(ascii) on a byte ≥ 128
  | keyError             -- chunks[IHDR] / chunks[IDAT] missing
  | indexError           -- sequence index out of range
  deriving DecidableEq

/-- Python slice `l[i:j]` for `0 ≤ i ≤ j`: clamps at the end of the list,
never raises. -/
def pySlice (l : List Nat) (i j : Nat) : List Nat := (l.drop i).take (j - i)

/-- Model of struct.unpack(>I, s)[0]: one big-endian uint32; struct.error unless
`s` is exactly 4 bytes. -/
def unpackBE4 (s : List Nat) : Except PyErr Nat :=
  match s with
  | [a, b, c, d] => .ok (((a * 256 + b) * 256 + c) * 256 + d)
  | _ => .error .structError

/-- Model of struct.unpack(>II, s): two big-endian uint32; struct.error unless
`s` is exactly 8 bytes. -/
def unpackBE8 (s : List Nat) : Except PyErr (Nat × Nat) :=
  match s with
  | [a, b, c, d, e, f, g, h] =>
      .ok (((a * 256 + b) * 256 + c) * 256 + d, ((e * 256 + f) * 256 + g) * 256 + h)
  | _ => .error .structError

/-- The `chunks` dict of `load_png`: insertion-ordered association list from
chunk-type byte strings to the list of payloads seen for that type. -/
abbrev ChunkDict := List (List Nat × List (List Nat))

/-- Model of the dict update: if ct not in chunks then chunks[ct] = [], followed by chunks[ct].append(v). -/
def dictAppend : ChunkDict → List Nat → List Nat → ChunkDict
  | [], k, v => [(k, [v])]
  | (k', vs) :: rest, k, v =>
    if k' = k then (k', vs ++ [v]) :: rest else (k', vs) :: dictAppend rest k v

/-- Dict lookup `chunks[k]` (as an `Option`; `none` models `KeyError`). -/
def dictLookup : ChunkDict → List Nat → Option (List (List Nat))
  | [], _ => none
  | (k', vs) :: rest, k => if k' = k then some vs else dictLookup rest k

/-- The chunk loop of `load_png` (lines 40–46 of inspect-tiles.py):

    i = 8
    while i < len(data):
        l = struct.unpack(>I, data[i:i+4])[0]
        ct = data[i+4:i+8].decode(ascii)
        if ct not in chunks: chunks[ct] = []
        chunks[ct].append(data[i+8:i+8+l])
        i += 12 + l

Fuel-indexed: `none` means the fuel ran out before the loop finished (shown
impossible for fuel ≥ len(data) − i); `some r` is the outcome of the loop.  Note
there is no signature check and no bounds check on `l`: the payload slice
silently clamps at the end of the buffer. -/
def parseChunksF (data : List Nat) : Nat → Nat → ChunkDict → Option (Except PyErr ChunkDict)
  | 0, i, chunks => if i < data.length then none else some (.ok chunks)
  | fuel + 1, i, chunks =>
    if i < data.length then
      match unpackBE4 (pySlice data i (i + 4)) with
      | .error e => some (.error e)
      | .ok l =>
        if ∀ b ∈ pySlice data (i + 4) (i + 8), b < 128 then
          parseChunksF data fuel (i + 12 + l)
            (dictAppend chunks (pySlice data (i + 4) (i + 8)) (pySlice data (i + 8) (i + 8 + l)))
        else some (.error .unicodeDecodeError)
    else some (.ok chunks)

/-- The 4 ASCII bytes of the tag IHDR. -/
def ihdrTag : List Nat := [73, 72, 68, 82]

/-- The 4 ASCII bytes of the tag IDAT. -/
def idatTag : List Nat := [73, 68, 65, 84]

/-- Line 47 of the script: W, H = struct.unpack(>II, chunks[IHDR][0][:8]).  Only the
first 8 payload bytes are read; bit depth, color type, compression, filter
and interlace bytes (payload bytes 8–12) are never examined. -/
def parseHeader (chunks : ChunkDict) : Except PyErr (Nat × Nat) :=
  match dictLookup chunks ihdrTag with
  | none => .error .keyError
  | some [] => .error .indexError
  | some (p :: _) => unpackBE8 (pySlice p 0 8)

/-- Line 49 of the script: rb = (W * 4 + 7) // 8.  The factor 4 is a hardcoded bit
depth: the bit-depth field of the header is never consulted. -/
def rowStride (W : Nat) : Nat := (W * 4 + 7) / 8

/-- The tail of the Sub defilter loop: each output byte is the input byte
plus the previous *output* byte, mod 256 (`row[x] = (row[x]+row[x-1])%256`). -/
def subScan : List Nat → Nat → List Nat
  | [], _ => []
  | b :: rest, p => ((b + p) % 256) :: subScan rest ((b + p) % 256)

/-- Filter tag 1 (Sub), line 57: `for x in range(1, rb): row[x] =
(row[x]+row[x-1])%256`.  Index 0 is left untouched. -/
def defilterSub : List Nat → List Nat
  | [] => []
  | b :: rest => b :: subScan rest b

/-- Filter tag 2 (Up), line 59: `for x in range(rb): row[x] =
(row[x]+prev[x])%256`.  (At every call site `row.length = rb = prev.length`,
so the `zipWith` covers exactly the range of the loop.) -/
def defilterUp (row prev : List Nat) : List Nat :=
  List.zipWith (fun a b => (a + b) % 256) row prev

/-- Filter dispatch for one row (lines 56–59) applied to `row0 = raw[idx:idx+rb]`
(so `row0.length ≤ rb` always).  The loops index up to `rb`, raising
`IndexError` when the sliced row (or `prev`, for Up) is shorter than `rb`;
any tag other than 1 or 2 falls through with the row unchanged. -/
def defilterStep (ft rb : Nat) (row0 prev : List Nat) : Except PyErr (List Nat) :=
  if ft = 1 then
    if 2 ≤ rb ∧ row0.length < rb then .error .indexError else .ok (defilterSub row0)
  else if ft = 2 then
    if 1 ≤ rb ∧ (row0.length < rb ∨ prev.length < rb) then .error .indexError
    else .ok (defilterUp row0 prev)
  else .ok row0

/-- Pixel unpacking (lines 61–62): `px.append((b>>4)&0xF); px.append(b&0xF)`
for each row byte — two 4-bit values per byte, high nibble first. -/
def unpackRow (row : List Nat) : List Nat :=
  (row.map (fun b => [b / 16 % 16, b % 16])).flatten

/-- The per-row loop of `load_png` (lines 53–64) on the defiltered-rows
level: `ft = raw[idx]` (IndexError when past the end), `row =
list(raw[idx:idx+rb])`, filter dispatch, recurse on the rest with the
reconstructed row as the new `prev`.  The running index `idx` into `raw` is
represented by consuming the list: `raw[idx] ↦ head`, advance `idx += 1+rb ↦
drop`. -/
def decodeRows (rb : Nat) : Nat → List Nat → List Nat → Except PyErr (List (List Nat))
  | 0, _, _ => .ok []
  | h + 1, rest, prev =>
    match rest with
    | [] => .error .indexError
    | ft :: tail =>
      match defilterStep ft rb (tail.take rb) prev with
      | .error e => .error e
      | .ok row =>
        match decodeRows rb h (tail.drop rb) row with
        | .error e => .error e
        | .ok rows => .ok (row :: rows)

/-- Lines 49–64 of `load_png`: the scanline reconstruction and pixel
unpacking applied to the (already decompressed) raw stream.  `prev` starts
as `[0]*rb`; each final pixel row is `px[:W]` for the unpacked row. -/
def load_png_core (W H : Nat) (raw : List Nat) : Except PyErr (List (List Nat)) :=
  match decodeRows (rowStride W) H raw (List.replicate (rowStride W) 0) with
  | .error e => .error e
  | .ok rows => .ok (rows.map (fun row => (unpackRow row).take W))

/-- The whole of `load_png` (lines 37–65), with `zlib.decompress` abstracted
as the external collaborator `decompress`.  Returns `none` only on fuel
exhaustion of the chunk loop (impossible; see the termination theorem). -/
def load_png_with (decompress : List Nat → Except PyErr (List Nat)) (data : List Nat) :
    Option (Except PyErr (List (List Nat) × Nat × Nat)) :=
  match parseChunksF data data.length 8 [] with
  | none => none
  | some (.error e) => some (.error e)
  | some (.ok chunks) =>
    match parseHeader chunks with
    | .error e => some (.error e)
    | .ok (W, H) =>
      match dictLookup chunks idatTag with
      | none => some (.error .keyError)
      | some payloads =>
        match decompress payloads.flatten with
        | .error e => some (.error e)
        | .ok raw =>
          match load_png_core W H raw with
          | .error e => some (.error e)
          | .ok pixels => some (.ok (pixels, W, H))

/-- Modelled from the spec: the fixed 8-byte magic signature of the
container format ("verify a fixed 8-byte magic signature at offset 0").
The source never checks it — it only skips 8 bytes — so the constant is
taken from the format given in the spec. -/
def pngMagic : List Nat := [137, 80, 78, 71, 13, 10, 26, 10]

/-- Modelled from the spec: one row of the synthetic tag-0 encoder of the
round-trip law — pack 4-bit palette indices two per byte, high nibble
first, padding a trailing odd pixel with zero bits. -/
def packRow : List Nat → List Nat
  | [] => []
  | [p] => [p * 16]
  | p :: q :: rest => (p * 16 + q) :: packRow rest

/-- Modelled from the spec: the synthetic tag-0 encoder of the round-trip
law — every row prefixed with filter tag 0 (None). -/
def encodeGrid (g : List (List Nat)) : List Nat :=
  (g.map (fun row => 0 :: packRow row)).flatten

/-- A concrete stand-in for the external decompression collaborator that
yields the two-byte raw stream [0, 23]: one row, filter tag 0, row byte 23. -/
def inflate23 : List Nat → Except PyErr (List Nat) := fun _ => .ok [0, 23]

/-- A concrete stand-in for the external decompression collaborator that
yields the raw stream [0, 128]: one row, filter tag 0, row byte 128. -/
def inflate128 : List Nat → Except PyErr (List Nat) := fun _ => .ok [0, 128]

/-- A complete container file: correct signature, an IHDR chunk declaring
width 1, height 1, bit depth 16, color type 2 (truecolor, not
palette-indexed), interlace method 1 (Adam7), then one IDAT chunk. -/
def truecolorInterlacedFile : List Nat :=
  pngMagic ++ [0, 0, 0, 13] ++ ihdrTag ++ [0, 0, 0, 1, 0, 0, 0, 1, 16, 2, 0, 0, 1] ++
    [0, 0, 0, 0] ++ [0, 0, 0, 1] ++ idatTag ++ [9] ++ [0, 0, 0, 0]

/-- A complete container file with a fully valid header: width 1, height 1,
bit depth 1, color type 3 (palette-indexed), no interlacing, one IDAT. -/
def depth1File : List Nat :=
  pngMagic ++ [0, 0, 0, 13] ++ ihdrTag ++ [0, 0, 0, 1, 0, 0, 0, 1, 1, 3, 0, 0, 0] ++
    [0, 0, 0, 0] ++ [0, 0, 0, 1] ++ idatTag ++ [9] ++ [0, 0, 0, 0]

/-! ## Helper lemmas -/

theorem pySlice_length (l : List Nat) (i j : Nat) :
    (pySlice l i j).length = min (j - i) (l.length - i) := by
  simp [pySlice]

theorem parseChunksF_past_end (data : List Nat) (fuel i : Nat) (chunks : ChunkDict)
    (h : data.length ≤ i) : parseChunksF data fuel i chunks = some (.ok chunks) := by
  have hni : ¬ i < data.length := by omega
  cases fuel <;> simp [parseChunksF, hni]

theorem parseChunksF_isSome (data : List Nat) :
    ∀ (fuel i : Nat) (chunks : ChunkDict), data.length - i ≤ fuel →
      (parseChunksF data fuel i chunks).isSome = true := by
  intro fuel
  induction fuel with
  | zero =>
    intro i chunks h
    have hni : ¬ i < data.length := by omega
    simp [parseChunksF, hni]
  | succ fuel ih =>
    intro i chunks h
    rw [parseChunksF]
    by_cases hi : i < data.length
    · simp only [hi, if_true]
      cases hu : unpackBE4 (pySlice data i (i + 4)) with
      | error e => simp
      | ok l =>
        dsimp only
        by_cases hct : ∀ b ∈ pySlice data (i + 4) (i + 8), b < 128
        · rw [if_pos hct]
          exact ih (i + 12 + l) _ (by omega)
        · rw [if_neg hct]
          rfl
    · simp [hi]

theorem drop_append_of_le (pre₁ pre₂ rest : List Nat) (a : Nat)
    (h₁ : pre₁.length = 8) (h₂ : pre₂.length = 8) (ha : 8 ≤ a) :
    (pre₁ ++ rest).drop a = (pre₂ ++ rest).drop a := by
  obtain ⟨k, rfl⟩ : ∃ k, a = 8 + k := ⟨a - 8, by omega⟩
  have e₁ : (pre₁ ++ rest).drop (8 + k) = rest.drop k := by
    rw [← h₁]; exact List.drop_append k
  have e₂ : (pre₂ ++ rest).drop (8 + k) = rest.drop k := by
    rw [← h₂]; exact List.drop_append k
  rw [e₁, e₂]

theorem pySlice_skip_front (pre₁ pre₂ rest : List Nat) (a b : Nat)
    (h₁ : pre₁.length = 8) (h₂ : pre₂.length = 8) (ha : 8 ≤ a) :
    pySlice (pre₁ ++ rest) a b = pySlice (pre₂ ++ rest) a b := by
  unfold pySlice
  rw [drop_append_of_le pre₁ pre₂ rest a h₁ h₂ ha]

/-! ## C10 — the chunk loop terminates -/

/-- C10: the chunk-parsing loop terminates for every finite input buffer:
run with fuel at least `len(data) − i` it always reaches an outcome (it
never exhausts the fuel), because each iteration advances the offset by
`12 + declared-length ≥ 12`. -/
theorem chunk_loop_terminates (data : List Nat) (fuel i : Nat) (chunks : ChunkDict)
    (h : data.length - i ≤ fuel) : (parseChunksF data fuel i chunks).isSome = true :=
  parseChunksF_isSome data fuel i chunks h

theorem chunk_loop_terminates_witness :
    ([0, 0, 0, 0, 0, 0, 0, 0, 0, 0, 0, 1, 73, 68, 65, 84, 9, 0, 0, 0, 0] : List Nat).length - 8 ≤ 13
    ∧ (parseChunksF [0, 0, 0, 0, 0, 0, 0, 0, 0, 0, 0, 1, 73, 68, 65, 84, 9, 0, 0, 0, 0]
        13 8 []).isSome = true :=
  ⟨by decide,
   chunk_loop_terminates [0, 0, 0, 0, 0, 0, 0, 0, 0, 0, 0, 1, 73, 68, 65, 84, 9, 0, 0, 0, 0]
     13 8 [] (by decide)⟩

/-! ## C6 — over-long declared chunk length -/

/-- C6 counterexample: a buffer whose single chunk declares payload length
100 with only 2 bytes remaining.  The claimed `TruncatedInputError` does not
happen: the loop returns successfully, having stored the silently truncated
2-byte payload. -/
theorem overlong_chunk_no_error :
    parseChunksF [0, 0, 0, 0, 0, 0, 0, 0, 0, 0, 0, 100, 73, 68, 65, 84, 1, 2] 18 8 [] =
      some (.ok [([73, 68, 65, 84], [[1, 2]])]) := rfl

/-- C6 amended: when the declared uint32 payload length `l` of the chunk at
offset `i` reaches past the end of the buffer, the parser does not fail: the
payload slice silently clamps to the bytes that remain (so the stored
payload is strictly shorter than declared) and the loop then terminates
successfully, the offset having jumped past the end. -/
theorem overlong_chunk_truncated (data : List Nat) (i fuel l : Nat) (chunks : ChunkDict)
    (hi : i < data.length)
    (hl : unpackBE4 (pySlice data i (i + 4)) = .ok l)
    (hct : ∀ b ∈ pySlice data (i + 4) (i + 8), b < 128)
    (hover : data.length < i + 8 + l)
    (hpos : 0 < l) :
    parseChunksF data (fuel + 1) i chunks =
        some (.ok (dictAppend chunks (pySlice data (i + 4) (i + 8)) (pySlice data (i + 8) (i + 8 + l))))
      ∧ (pySlice data (i + 8) (i + 8 + l)).length < l := by
  constructor
  · rw [parseChunksF, if_pos hi, hl]
    dsimp only
    rw [if_pos hct]
    exact parseChunksF_past_end data fuel _ _ (by omega)
  · rw [pySlice_length]
    omega

theorem overlong_chunk_truncated_witness :
    (8 < ([0, 0, 0, 0, 0, 0, 0, 0, 0, 0, 0, 100, 73, 68, 65, 84, 1, 2] : List Nat).length
      ∧ unpackBE4 (pySlice [0, 0, 0, 0, 0, 0, 0, 0, 0, 0, 0, 100, 73, 68, 65, 84, 1, 2] 8 12) = .ok 100
      ∧ (∀ b ∈ pySlice [0, 0, 0, 0, 0, 0, 0, 0, 0, 0, 0, 100, 73, 68, 65, 84, 1, 2] 12 16, b < 128)
      ∧ ([0, 0, 0, 0, 0, 0, 0, 0, 0, 0, 0, 100, 73, 68, 65, 84, 1, 2] : List Nat).length < 8 + 8 + 100
      ∧ 0 < 100)
    ∧ (parseChunksF [0, 0, 0, 0, 0, 0, 0, 0, 0, 0, 0, 100, 73, 68, 65, 84, 1, 2] 4 8 [] =
          some (.ok (dictAppend [] (pySlice [0, 0, 0, 0, 0, 0, 0, 0, 0, 0, 0, 100, 73, 68, 65, 84, 1, 2] 12 16)
            (pySlice [0, 0, 0, 0, 0, 0, 0, 0, 0, 0, 0, 100, 73, 68, 65, 84, 1, 2] 16 116)))
        ∧ (pySlice [0, 0, 0, 0, 0, 0, 0, 0, 0, 0, 0, 100, 73, 68, 65, 84, 1, 2] 16 116).length < 100) :=
  ⟨⟨by decide, rfl, by decide, by decide, by decide⟩,
   overlong_chunk_truncated [0, 0, 0, 0, 0, 0, 0, 0, 0, 0, 0, 100, 73, 68, 65, 84, 1, 2] 8 3 100 []
     (by decide) rfl (by decide) (by decide) (by decide)⟩

/-! ## C7 — no magic-signature check -/

/-- C7 counterexample: a buffer whose first 8 bytes are all zero — not the
magic signature — parses successfully into a chunk dict.  No `FormatError`
exists, and chunks are read despite the bad signature. -/
theorem bad_magic_parses :
    pySlice [0, 0, 0, 0, 0, 0, 0, 0, 0, 0, 0, 1, 73, 68, 65, 84, 9, 0, 0, 0, 0] 0 8 ≠ pngMagic
    ∧ parseChunksF [0, 0, 0, 0, 0, 0, 0, 0, 0, 0, 0, 1, 73, 68, 65, 84, 9, 0, 0, 0, 0]
        21 8 [] = some (.ok [([73, 68, 65, 84], [[9]])]) :=
  ⟨by decide, rfl⟩

/-- C7 amended: the parser starts at offset 8 without ever examining bytes
0–7: replacing the first 8 bytes of the buffer by any other 8 bytes leaves
the entire chunk-parsing outcome unchanged.  In particular a wrong signature
is never detected and no `FormatError` is raised. -/
theorem signature_never_inspected (pre₁ pre₂ rest : List Nat) :
    ∀ (fuel i : Nat) (chunks : ChunkDict), pre₁.length = 8 → pre₂.length = 8 → 8 ≤ i →
      parseChunksF (pre₁ ++ rest) fuel i chunks = parseChunksF (pre₂ ++ rest) fuel i chunks := by
  intro fuel
  induction fuel with
  | zero =>
    intro i chunks h₁ h₂ hi
    have hlen : (pre₁ ++ rest).length = (pre₂ ++ rest).length := by
      simp [h₁, h₂]
    simp only [parseChunksF, hlen]
  | succ fuel ih =>
    intro i chunks h₁ h₂ hi
    have hlen : (pre₁ ++ rest).length = (pre₂ ++ rest).length := by
      simp [h₁, h₂]
    rw [parseChunksF, parseChunksF, hlen,
      pySlice_skip_front pre₁ pre₂ rest i (i + 4) h₁ h₂ hi,
      pySlice_skip_front pre₁ pre₂ rest (i + 4) (i + 8) h₁ h₂ (by omega)]
    by_cases hcond : i < (pre₂ ++ rest).length
    · rw [if_pos hcond, if_pos hcond]
      cases hu : unpackBE4 (pySlice (pre₂ ++ rest) i (i + 4)) with
      | error e => rfl
      | ok l =>
        dsimp only
        rw [pySlice_skip_front pre₁ pre₂ rest (i + 8) (i + 8 + l) h₁ h₂ (by omega)]
        by_cases hct : ∀ b ∈ pySlice (pre₂ ++ rest) (i + 4) (i + 8), b < 128
        · rw [if_pos hct, if_pos hct]
          exact ih (i + 12 + l) _ h₁ h₂ (by omega)
        · rw [if_neg hct, if_neg hct]
    · rw [if_neg hcond, if_neg hcond]

theorem signature_never_inspected_witness :
    (([0, 0, 0, 0, 0, 0, 0, 0] : List Nat).length = 8 ∧ pngMagic.length = 8 ∧ 8 ≤ 8)
    ∧ parseChunksF ([0, 0, 0, 0, 0, 0, 0, 0] ++ [0, 0, 0, 1, 73, 68, 65, 84, 9, 0, 0, 0, 0]) 21 8 [] =
        parseChunksF (pngMagic ++ [0, 0, 0, 1, 73, 68, 65, 84, 9, 0, 0, 0, 0]) 21 8 [] :=
  ⟨⟨by decide, by decide, by decide⟩,
   signature_never_inspected [0, 0, 0, 0, 0, 0, 0, 0] pngMagic
     [0, 0, 0, 1, 73, 68, 65, 84, 9, 0, 0, 0, 0] 21 8 [] (by decide) (by decide) (by decide)⟩

/-! ## C8 — header fields beyond width/height are never validated -/

theorem unpackBE8_ok_of_length (s : List Nat) (h : s.length = 8) :
    ∃ W H, unpackBE8 s = .ok (W, H) := by
  rcases s with _ | ⟨a, s⟩; · simp at h
  rcases s with _ | ⟨b, s⟩; · simp at h
  rcases s with _ | ⟨c, s⟩; · simp at h
  rcases s with _ | ⟨d, s⟩; · simp at h
  rcases s with _ | ⟨e, s⟩; · simp at h
  rcases s with _ | ⟨f, s⟩; · simp at h
  rcases s with _ | ⟨g, s⟩; · simp at h
  rcases s with _ | ⟨k, s⟩; · simp at h
  rcases s with _ | ⟨x, s⟩
  · exact ⟨_, _, rfl⟩
  · simp at h

/-- C8 counterexample: a complete file whose header declares bit depth 16
(not in {1,2,4,8}), color type 2 (truecolor, not palette-indexed) and
interlace method 1 (Adam7).  Decoding does not fail with
`UnsupportedFeatureError` — it succeeds and produces a pixel grid. -/
theorem invalid_header_decoded :
    load_png_with inflate23 truecolorInterlacedFile = some (.ok ([[1]], 1, 1))
    ∧ pySlice truecolorInterlacedFile 24 29 = [16, 2, 0, 0, 1] :=
  ⟨rfl, by decide⟩

/-- C8 amended: the header interpreter reads only the first 8 payload bytes
of the IHDR chunk (width and height): its result is `unpackBE8` of those 8
bytes alone, so bit depth, color type and interlace method are never
examined, and whenever at least 8 payload bytes exist the header parse
succeeds no matter what those later fields contain. -/
theorem header_reads_first8_only (chunks : ChunkDict) (p : List Nat) (ps : List (List Nat))
    (hlk : dictLookup chunks ihdrTag = some (p :: ps)) :
    parseHeader chunks = unpackBE8 (p.take 8)
    ∧ (8 ≤ p.length → ∃ W H, parseHeader chunks = .ok (W, H)) := by
  have h1 : parseHeader chunks = unpackBE8 (p.take 8) := by
    unfold parseHeader
    rw [hlk]
    simp [pySlice]
  refine ⟨h1, fun hp => ?_⟩
  rw [h1]
  exact unpackBE8_ok_of_length _ (by simp [hp])

theorem header_reads_first8_only_witness :
    dictLookup [([73, 72, 68, 82], [[0, 0, 0, 1, 0, 0, 0, 1, 16, 2, 0, 0, 1]])] ihdrTag =
        some ([0, 0, 0, 1, 0, 0, 0, 1, 16, 2, 0, 0, 1] :: [])
    ∧ (parseHeader [([73, 72, 68, 82], [[0, 0, 0, 1, 0, 0, 0, 1, 16, 2, 0, 0, 1]])] =
          unpackBE8 ([0, 0, 0, 1, 0, 0, 0, 1, 16, 2, 0, 0, 1].take 8)
       ∧ (8 ≤ ([0, 0, 0, 1, 0, 0, 0, 1, 16, 2, 0, 0, 1] : List Nat).length →
            ∃ W H, parseHeader [([73, 72, 68, 82], [[0, 0, 0, 1, 0, 0, 0, 1, 16, 2, 0, 0, 1]])] =
              .ok (W, H))) :=
  ⟨rfl,
   header_reads_first8_only [([73, 72, 68, 82], [[0, 0, 0, 1, 0, 0, 0, 1, 16, 2, 0, 0, 1]])]
     [0, 0, 0, 1, 0, 0, 0, 1, 16, 2, 0, 0, 1] [] rfl⟩

/-! ## Scanline helper lemmas -/

theorem subScan_length (rest : List Nat) : ∀ p : Nat, (subScan rest p).length = rest.length := by
  induction rest with
  | nil => intro p; rfl
  | cons b t ih => intro p; simp [subScan, ih]

theorem defilterSub_length (row : List Nat) : (defilterSub row).length = row.length := by
  cases row with
  | nil => rfl
  | cons b t => simp [defilterSub, subScan_length]

theorem subScan_getD (rest : List Nat) : ∀ (p k : Nat), k < rest.length →
    (subScan rest p).getD k 0 =
      (rest.getD k 0 + (if k = 0 then p else (subScan rest p).getD (k - 1) 0)) % 256 := by
  induction rest with
  | nil => intro p k hk; simp at hk
  | cons b t ih =>
    intro p k hk
    cases k with
    | zero => simp [subScan]
    | succ j =>
      have hj : j < t.length := by
        simp only [List.length_cons] at hk
        omega
      have h1 : (subScan (b :: t) p).getD (j + 1) 0 = (subScan t ((b + p) % 256)).getD j 0 := rfl
      have h2 : ((b :: t).getD (j + 1) 0) = t.getD j 0 := rfl
      have h3 : (subScan (b :: t) p).getD j 0 =
          (((b + p) % 256) :: subScan t ((b + p) % 256)).getD j 0 := rfl
      rw [h1, ih ((b + p) % 256) j hj, h2,
        if_neg (show ¬(j + 1 = 0) by omega), Nat.add_sub_cancel, h3]
      cases j with
      | zero => rw [if_pos rfl, List.getD_cons_zero]
      | succ m =>
        rw [if_neg (show ¬(m + 1 = 0) by omega), List.getD_cons_succ, Nat.add_sub_cancel]

theorem defilterUp_getD (row : List Nat) : ∀ (prev : List Nat) (c : Nat),
    c < row.length → c < prev.length →
    (defilterUp row prev).getD c 0 = (row.getD c 0 + prev.getD c 0) % 256 := by
  induction row with
  | nil => intro prev c hc _; simp at hc
  | cons a t ih =>
    intro prev c hc hp
    cases prev with
    | nil => simp at hp
    | cons b u =>
      cases c with
      | zero => simp [defilterUp]
      | succ m =>
        have := ih u m (by simpa using Nat.lt_of_succ_lt_succ hc)
          (by simpa using Nat.lt_of_succ_lt_succ hp)
        simpa [defilterUp] using this

/-! ## C1 — unknown filter tags are silently treated as None -/

/-- C1 counterexample: a raw stream whose single row carries filter tag 5.
Decoding does not fail with `UnsupportedFeatureError`: it returns a
PixelGrid, and exactly the grid obtained when the same row is marked with
filter tag 0 (None). -/
theorem tag5_silently_decoded :
    load_png_core 2 1 [5, 171] = .ok [[10, 11]]
    ∧ load_png_core 2 1 [5, 171] = load_png_core 2 1 [0, 171] :=
  ⟨rfl, rfl⟩

/-- C1 amended: the row-filter dispatch handles only tags 1 (Sub) and 2
(Up); every other tag value — 0, 3, 4, 5, 255, ... — falls through with the
row bytes unchanged, i.e. it is silently treated as filter None, and no
error of any kind is raised. -/
theorem unknown_tag_passthrough (ft rb : Nat) (row0 prev : List Nat)
    (h1 : ft ≠ 1) (h2 : ft ≠ 2) : defilterStep ft rb row0 prev = .ok row0 := by
  unfold defilterStep
  rw [if_neg h1, if_neg h2]

theorem unknown_tag_passthrough_witness :
    ((5 : Nat) ≠ 1 ∧ (5 : Nat) ≠ 2)
    ∧ defilterStep 5 1 [171] [0] = .ok [171] :=
  ⟨⟨by decide, by decide⟩, unknown_tag_passthrough 5 1 [171] [0] (by decide) (by decide)⟩

/-! ## C2 — Sub filter algebra -/

/-- C2: for a well-formed row (length exactly `rb`) of bytes, filter tag 1
(Sub) reconstructs `output[c] = (input[c] + output[c − 1]) mod 256` for
every column `c < rb`, with the out-of-range left neighbour (`c − bpp < 0`,
`bpp = 1`) taken as 0; sums above 255 wrap modulo 256. -/
theorem sub_filter_formula (rb : Nat) (row0 prev : List Nat)
    (hlen : row0.length = rb) (hbytes : ∀ b ∈ row0, b < 256) :
    defilterStep 1 rb row0 prev = .ok (defilterSub row0)
    ∧ (defilterSub row0).length = rb
    ∧ ∀ c, c < rb → (defilterSub row0).getD c 0 =
        (row0.getD c 0 + (if c = 0 then 0 else (defilterSub row0).getD (c - 1) 0)) % 256 := by
  refine ⟨?_, ?_, ?_⟩
  · unfold defilterStep
    rw [if_pos rfl, if_neg (by omega)]
  · rw [defilterSub_length, hlen]
  · intro c hc
    subst hlen
    cases row0 with
    | nil => simp at hc
    | cons b t =>
      cases c with
      | zero =>
        have hb : b < 256 := hbytes b (by simp)
        simp [defilterSub, Nat.mod_eq_of_lt hb]
      | succ j =>
        have hj : j < t.length := by
          simp only [List.length_cons] at hc
          omega
        have h1 : (defilterSub (b :: t)).getD (j + 1) 0 = (subScan t b).getD j 0 := rfl
        have h2 : ((b :: t).getD (j + 1) 0) = t.getD j 0 := rfl
        have h3 : (defilterSub (b :: t)).getD j 0 = (b :: subScan t b).getD j 0 := rfl
        rw [h1, subScan_getD t b j hj, h2,
          if_neg (show ¬(j + 1 = 0) by omega), Nat.add_sub_cancel, h3]
        cases j with
        | zero => rw [if_pos rfl, List.getD_cons_zero]
        | succ m =>
          rw [if_neg (show ¬(m + 1 = 0) by omega), List.getD_cons_succ, Nat.add_sub_cancel]

theorem sub_filter_formula_witness :
    (([200, 100, 100] : List Nat).length = 3 ∧ ∀ b ∈ ([200, 100, 100] : List Nat), b < 256)
    ∧ (defilterStep 1 3 [200, 100, 100] [0, 0, 0] = .ok (defilterSub [200, 100, 100])
       ∧ (defilterSub [200, 100, 100]).length = 3
       ∧ ∀ c, c < 3 → (defilterSub [200, 100, 100]).getD c 0 =
           (([200, 100, 100] : List Nat).getD c 0 +
             (if c = 0 then 0 else (defilterSub [200, 100, 100]).getD (c - 1) 0)) % 256)
    ∧ defilterSub [200, 100, 100] = [200, 44, 144] :=
  ⟨⟨by decide, by decide⟩,
   sub_filter_formula 3 [200, 100, 100] [0, 0, 0] (by decide) (by decide),
   by decide⟩

/-! ## C3 — Up filter algebra -/

/-- C3: for a well-formed row and previous row (both of length `rb`), filter
tag 2 (Up) reconstructs `output[c] = (input[c] + previousRow[c]) mod 256`
for every column `c < rb`; the previous row passed along is the previously
reconstructed row, and `load_png_core` starts it as the all-zero row
`List.replicate rb 0` for row 0 (third conjunct, by definition). -/
theorem up_filter_formula (rb : Nat) (row0 prev : List Nat)
    (h1 : row0.length = rb) (h2 : prev.length = rb) :
    defilterStep 2 rb row0 prev = .ok (defilterUp row0 prev)
    ∧ (∀ c, c < rb → (defilterUp row0 prev).getD c 0 = (row0.getD c 0 + prev.getD c 0) % 256)
    ∧ (∀ W H raw, load_png_core W H raw =
         match decodeRows (rowStride W) H raw (List.replicate (rowStride W) 0) with
         | .error e => .error e
         | .ok rows => .ok (rows.map (fun row => (unpackRow row).take W))) := by
  refine ⟨?_, ?_, fun W H raw => rfl⟩
  · unfold defilterStep
    rw [if_neg (by omega), if_pos rfl, if_neg (by omega)]
  · intro c hc
    exact defilterUp_getD row0 prev c (by omega) (by omega)

theorem up_filter_formula_witness :
    (([5, 250] : List Nat).length = 2 ∧ ([10, 20] : List Nat).length = 2)
    ∧ (defilterStep 2 2 [5, 250] [10, 20] = .ok (defilterUp [5, 250] [10, 20])
       ∧ (∀ c, c < 2 → (defilterUp [5, 250] [10, 20]).getD c 0 =
           (([5, 250] : List Nat).getD c 0 + ([10, 20] : List Nat).getD c 0) % 256)
       ∧ (∀ W H raw, load_png_core W H raw =
            match decodeRows (rowStride W) H raw (List.replicate (rowStride W) 0) with
            | .error e => .error e
            | .ok rows => .ok (rows.map (fun row => (unpackRow row).take W))))
    ∧ defilterUp [5, 250] [10, 20] = [15, 14] :=
  ⟨⟨by decide, by decide⟩,
   up_filter_formula 2 [5, 250] [10, 20] (by decide) (by decide),
   by decide⟩

/-! ## C9 — decode is not atomic: truncated rows can be exposed -/

theorem decodeRows_ok_length (rb : Nat) : ∀ (h : Nat) (rest prev : List Nat) (rows : List (List Nat)),
    decodeRows rb h rest prev = .ok rows → rows.length = h := by
  intro h
  induction h with
  | zero =>
    intro rest prev rows he
    simp only [decodeRows] at he
    cases he
    rfl
  | succ h ih =>
    intro rest prev rows he
    cases rest with
    | nil => simp [decodeRows] at he
    | cons ft tail =>
      rw [decodeRows] at he
      cases hstep : defilterStep ft rb (tail.take rb) prev with
      | error e => rw [hstep] at he; dsimp only at he; cases he
      | ok row =>
        rw [hstep] at he
        dsimp only at he
        cases hrec : decodeRows rb h (tail.drop rb) row with
        | error e => rw [hrec] at he; dsimp only at he; cases he
        | ok rows₂ =>
          rw [hrec] at he
          dsimp only at he
          cases he
          simp [ih (tail.drop rb) row rows₂ hrec]

/-- C9 counterexample: with width 4, height 1 the raw stream [0, 5] is
shorter than `height * (1 + rowStrideBytes) = 3`, yet decode neither fails
nor returns a complete grid: it returns a PixelGrid whose single row has
only 2 of the 4 entries — a partially reconstructed row is exposed. -/
theorem partial_row_exposed :
    load_png_core 4 1 [0, 5] = .ok [[0, 5]]
    ∧ ¬ (∀ row ∈ ([[0, 5]] : List (List Nat)), row.length = 4) :=
  ⟨rfl, by decide⟩

/-- C9 amended: decode is atomic only in the row count: whenever
`load_png_core` returns a grid at all it has exactly `height` rows and no
row longer than `width`, but a trailing row may be shorter than `width`
when the raw stream is truncated (filter tags 1 and 2 raise IndexError on a
short row, but any other tag lets the truncated row through). -/
theorem decode_ok_row_count (W H : Nat) (raw : List Nat) (g : List (List Nat))
    (hok : load_png_core W H raw = .ok g) :
    g.length = H ∧ ∀ row ∈ g, row.length ≤ W := by
  unfold load_png_core at hok
  cases hd : decodeRows (rowStride W) H raw (List.replicate (rowStride W) 0) with
  | error e => rw [hd] at hok; cases hok
  | ok rows =>
    rw [hd] at hok
    cases hok
    constructor
    · simp [decodeRows_ok_length (rowStride W) H raw _ rows hd]
    · intro row hrow
      simp only [List.mem_map] at hrow
      obtain ⟨r, _, rfl⟩ := hrow
      exact List.length_take_le W (unpackRow r)

theorem decode_ok_row_count_witness :
    load_png_core 4 1 [0, 5] = .ok [[0, 5]]
    ∧ (([[0, 5]] : List (List Nat)).length = 1
       ∧ ∀ row ∈ ([[0, 5]] : List (List Nat)), row.length ≤ 4) :=
  ⟨rfl, decode_ok_row_count 4 1 [0, 5] [[0, 5]] rfl⟩

/-! ## C4 — grid dimensions and the hardcoded bit depth -/

theorem defilterStep_full (ft rb : Nat) (row0 prev : List Nat)
    (hr : row0.length = rb) (hp : prev.length = rb) :
    ∃ row, defilterStep ft rb row0 prev = .ok row ∧ row.length = rb := by
  unfold defilterStep
  by_cases h1 : ft = 1
  · rw [if_pos h1, if_neg (by omega)]
    exact ⟨defilterSub row0, rfl, by rw [defilterSub_length, hr]⟩
  · rw [if_neg h1]
    by_cases h2 : ft = 2
    · rw [if_pos h2, if_neg (by omega)]
      exact ⟨defilterUp row0 prev, rfl, by simp [defilterUp, hr, hp]⟩
    · rw [if_neg h2]
      exact ⟨row0, rfl, hr⟩

theorem decodeRows_full (rb : Nat) : ∀ (h : Nat) (rest prev : List Nat),
    rest.length = h * (1 + rb) → prev.length = rb →
    ∃ rows, decodeRows rb h rest prev = .ok rows
      ∧ rows.length = h ∧ ∀ row ∈ rows, row.length = rb := by
  intro h
  induction h with
  | zero =>
    intro rest prev _ _
    exact ⟨[], rfl, rfl, by simp⟩
  | succ h ih =>
    intro rest prev hlen hprev
    have hexp : rest.length = 1 + (rb + h * (1 + rb)) := by
      rw [hlen]; ring
    cases rest with
    | nil =>
      rw [List.length_nil] at hexp
      omega
    | cons ft tail =>
      have htail : tail.length = rb + h * (1 + rb) := by
        simp only [List.length_cons] at hexp
        omega
      have htake : (tail.take rb).length = rb := by
        simp [htail]
      obtain ⟨row, hstep, hrowlen⟩ := defilterStep_full ft rb (tail.take rb) prev htake hprev
      have hdrop : (tail.drop rb).length = h * (1 + rb) := by
        simp [htail]
      obtain ⟨rows, hrec, hlen₂, hall⟩ := ih (tail.drop rb) row hdrop hrowlen
      refine ⟨row :: rows, ?_, by simp [hlen₂], ?_⟩
      · rw [decodeRows, hstep]
        dsimp only
        rw [hrec]
      · intro r hr
        cases hr with
        | head => exact hrowlen
        | tail _ hmem => exact hall r hmem

theorem unpackRow_length (row : List Nat) : (unpackRow row).length = 2 * row.length := by
  induction row with
  | nil => rfl
  | cons b t ih =>
    simp only [unpackRow, List.map_cons, List.flatten_cons] at ih ⊢
    simp [ih]
    omega

theorem unpackRow_lt16 (row : List Nat) : ∀ v ∈ unpackRow row, v < 16 := by
  intro v hv
  simp only [unpackRow, List.mem_flatten, List.mem_map] at hv
  obtain ⟨l, ⟨b, _, rfl⟩, hvl⟩ := hv
  simp only [List.mem_cons, List.mem_singleton, List.not_mem_nil, or_false] at hvl
  rcases hvl with rfl | rfl
  · exact Nat.mod_lt _ (by norm_num)
  · exact Nat.mod_lt _ (by norm_num)

/-- C4 counterexample: a complete file whose header is fully valid for bit
depth 1 (color type 3, no interlacing); the well-formed depth-1 raw stream
[0, 128] encodes the single pixel 1.  The decoder ignores the declared bit
depth, unpacks with the hardcoded depth 4, and returns the entry 8, which
is not `< 2^1`: the claim fails for bit depths other than 4. -/
theorem bit_depth_ignored :
    load_png_with inflate128 depth1File = some (.ok ([[8]], 1, 1))
    ∧ pySlice depth1File 24 29 = [1, 3, 0, 0, 0]
    ∧ ¬ (8 < 2 ^ 1) :=
  ⟨rfl, by decide, by decide⟩

/-- C4 amended: the decoder ignores the header bit-depth field and always
runs the hardcoded depth-4 path (`rowStride W = (W*4+7)/8`, two 4-bit
indices per byte).  For every raw stream of exactly
`H * (1 + rowStride W)` bytes it succeeds with exactly `H` rows of exactly
`W` entries, each `< 2^4`; the bound `< 2^bitDepth` claimed for declared
bit depths 1, 2 and 8 does not hold (see the counterexample). -/
theorem depth4_wellformed_decode (W H : Nat) (raw : List Nat)
    (hlen : raw.length = H * (1 + rowStride W)) :
    ∃ g, load_png_core W H raw = .ok g ∧ g.length = H
      ∧ ∀ row ∈ g, row.length = W ∧ ∀ v ∈ row, v < 2 ^ 4 := by
  obtain ⟨rows, hrec, hlen₂, hall⟩ :=
    decodeRows_full (rowStride W) H raw (List.replicate (rowStride W) 0) hlen (by simp)
  refine ⟨rows.map (fun row => (unpackRow row).take W), ?_, by simp [hlen₂], ?_⟩
  · unfold load_png_core
    rw [hrec]
  · intro row hrow
    simp only [List.mem_map] at hrow
    obtain ⟨r, hr, rfl⟩ := hrow
    constructor
    · have h2rb : W ≤ 2 * rowStride W := by
        unfold rowStride
        omega
      simp [unpackRow_length, hall r hr]
      omega
    · intro v hv
      have : v ∈ unpackRow r := List.mem_of_mem_take hv
      simpa using unpackRow_lt16 r v this

theorem depth4_wellformed_decode_witness :
    ([0, 37] : List Nat).length = 1 * (1 + rowStride 2)
    ∧ ∃ g, load_png_core 2 1 [0, 37] = .ok g ∧ g.length = 1
        ∧ ∀ row ∈ g, row.length = 2 ∧ ∀ v ∈ row, v < 2 ^ 4 :=
  ⟨by decide, depth4_wellformed_decode 2 1 [0, 37] (by decide)⟩

/-! ## C5 — tag-0 round-trip law -/

theorem packRow_length : ∀ l : List Nat, (packRow l).length = (l.length + 1) / 2 := by
  intro l
  induction l using packRow.induct with
  | case1 => rfl
  | case2 p => simp [packRow]
  | case3 p q rest ih =>
    simp only [packRow, List.length_cons, ih]
    omega

theorem rowStride_half (W : Nat) : rowStride W = (W + 1) / 2 := by
  unfold rowStride
  omega

theorem unpack_pack : ∀ l : List Nat, (∀ v ∈ l, v < 16) →
    (unpackRow (packRow l)).take l.length = l := by
  intro l
  induction l using packRow.induct with
  | case1 => intro _; rfl
  | case2 p =>
    intro hv
    have hp : p < 16 := hv p (by simp)
    simp [packRow, unpackRow, Nat.mul_div_cancel p (by norm_num : (0:Nat) < 16),
      Nat.mul_mod_left, Nat.mod_eq_of_lt hp]
  | case3 p q rest ih =>
    intro hv
    have hp : p < 16 := hv p (by simp)
    have hq : q < 16 := hv q (by simp)
    have hdiv : (p * 16 + q) / 16 = p := by omega
    have hmod : (p * 16 + q) % 16 = q := by omega
    simp only [packRow, unpackRow, List.map_cons, List.flatten_cons, List.length_cons,
      hdiv, hmod, Nat.mod_eq_of_lt hp]
    have ihr : ((unpackRow (packRow rest)).take rest.length) = rest :=
      ih (fun v hvr => hv v (by simp [hvr]))
    simp only [unpackRow] at ihr
    simp [List.take_cons, ihr]

theorem decodeRows_encode (W : Nat) : ∀ (g : List (List Nat)) (prev : List Nat),
    (∀ row ∈ g, row.length = W) →
    decodeRows (rowStride W) g.length (encodeGrid g) prev = .ok (g.map packRow) := by
  intro g
  induction g with
  | nil => intro prev _; rfl
  | cons row gs ih =>
    intro prev hW
    have hrow : row.length = W := hW row (by simp)
    have hpack : (packRow row).length = rowStride W := by
      rw [packRow_length, rowStride_half, hrow]
    have henc : encodeGrid (row :: gs) = 0 :: (packRow row ++ encodeGrid gs) := by
      simp [encodeGrid]
    rw [henc]
    show decodeRows (rowStride W) (gs.length + 1) (0 :: (packRow row ++ encodeGrid gs)) prev =
      .ok ((row :: gs).map packRow)
    rw [decodeRows]
    have hstep : defilterStep 0 (rowStride W) ((packRow row ++ encodeGrid gs).take (rowStride W))
        prev = .ok (packRow row) := by
      rw [List.take_left' hpack]
      unfold defilterStep
      rw [if_neg (by omega), if_neg (by omega)]
    rw [hstep]
    dsimp only
    rw [List.drop_left' hpack, ih (packRow row) (fun r hr => hW r (by simp [hr]))]
    rfl

/-- C5: the round-trip law.  Filter tag 0 (None) leaves every row byte
unchanged (first conjunct), and any PixelGrid of `width`-long rows of 4-bit
palette indices, packed into rows prefixed with filter tag 0 and fed
through scanline reconstruction and pixel unpacking, is reproduced
exactly. -/
theorem roundtrip_tag0 (g : List (List Nat)) (W : Nat)
    (hW : ∀ row ∈ g, row.length = W) (hv : ∀ row ∈ g, ∀ v ∈ row, v < 16) :
    (∀ rb row prev, defilterStep 0 rb row prev = .ok row)
    ∧ load_png_core W g.length (encodeGrid g) = .ok g := by
  constructor
  · intro rb row prev
    unfold defilterStep
    rw [if_neg (by omega), if_neg (by omega)]
  · unfold load_png_core
    rw [decodeRows_encode W g _ hW]
    dsimp only
    congr 1
    rw [List.map_map]
    have : ∀ (g' : List (List Nat)), (∀ row ∈ g', row.length = W) →
        (∀ row ∈ g', ∀ v ∈ row, v < 16) →
        g'.map ((fun row => (unpackRow row).take W) ∘ packRow) = g' := by
      intro g'
      induction g' with
      | nil => intro _ _; rfl
      | cons r t iht =>
        intro h1 h2
        have hr : r.length = W := h1 r (by simp)
        simp only [List.map_cons, Function.comp_apply]
        congr 1
        · rw [← hr]
          exact unpack_pack r (h2 r (by simp))
        · exact iht (fun x hx => h1 x (by simp [hx])) (fun x hx => h2 x (by simp [hx]))
    exact this g hW hv

theorem roundtrip_tag0_witness :
    ((∀ row ∈ ([[1, 2], [3, 4]] : List (List Nat)), row.length = 2)
      ∧ (∀ row ∈ ([[1, 2], [3, 4]] : List (List Nat)), ∀ v ∈ row, v < 16))
    ∧ ((∀ rb row prev, defilterStep 0 rb row prev = .ok row)
       ∧ load_png_core 2 ([[1, 2], [3, 4]] : List (List Nat)).length
           (encodeGrid [[1, 2], [3, 4]]) = .ok [[1, 2], [3, 4]]) :=
  ⟨⟨by decide, by decide⟩,
   roundtrip_tag0 [[1, 2], [3, 4]] 2 (by decide) (by decide)⟩

end InspectTiles
